import Mathlib

/-!
Shallow embedding of the media-uploader widget (src/media-uploader.tsx) of
shadcn-custom-inputs, together with proofs settling the specification claims
about it.

Modelling conventions:
* JS numbers used as byte counts / file counts are `Nat`; host-assigned file
  ids and millisecond timestamps (Date.now()) are `Int` (grace-window
  arithmetic `removedAt + 10000 - now` may go negative).
* Upload progress is a JS double advanced by `Math.random() * 25`; JS doubles
  are rationals, so progress and tick increments are `Rat`, with the
  environment choosing each tick's increment in [0, 25).
* React state hooks become fields of one `State` record; each event handler /
  timer callback becomes a total function `State → State` (plus its emitted
  callback events).  The two `useEffect` hooks with dependency arrays are
  replayed after every operation by `applyOp`, following React's semantics:
  an effect re-runs exactly when a dependency changed by reference, and every
  `setUploadedFiles` call in the source constructs a fresh array (map /
  filter / spread / literal), so the completion effect re-runs exactly when
  the operation wrote the local pool.
* Client-generated ids (Math.random().toString(36).slice(2, 11)) and
  FileReader preview results are environmental inputs, supplied with the
  `add` operation.
-/

/-- A raw browser `File`: the fields the component reads (`name`, `size`,
`type`). -/
structure RawFile where
  name : String
  size : Nat
  type : String
deriving DecidableEq, Repr

/-- `MediaType`: a host-supplied remote file record (src/types/media-type,
fields read by the component). -/
structure MediaType where
  id : Int
  file_name : String
  size : Nat
  mime_type : String
  url : String
deriving DecidableEq, Repr

/-- `DisplayFile` in the source is `MediaType` plus the constant tag
`isNew = false`; the tag is carried by the `FileItem` sum instead. -/
abbrev DisplayFile := MediaType

/-- `UploadedFile`: one local pending file record. -/
structure UploadedFile where
  id : String
  name : String
  file : RawFile
  preview : Option String
  progress : Rat
  error : Option String
  uploaded : Bool
deriving DecidableEq, Repr

/-- `UndoableRemoval`: a pending-deletion entry wrapping one remote file. -/
structure UndoableRemoval where
  id : Int
  file : DisplayFile
  removedAt : Int
deriving DecidableEq, Repr

/-- `FileItem = UploadedFile | DisplayFile`, the tagged union rendered in the
display list. -/
inductive FileItem where
  | existing (file : DisplayFile)
  | newFile (file : UploadedFile)
deriving DecidableEq, Repr

/-- Callback invocations observable by the host. -/
inductive Event where
  | error (message : String)
  | filesChange (files : List RawFile)
  | uploadComplete (files : List UploadedFile)
  | existingFileRemove (file : DisplayFile)
deriving DecidableEq, Repr

inductive FileTypeCategory where
  | image | video | audio | document | all
deriving DecidableEq, Repr

/-- `FILE_TYPE_MAPPINGS`. -/
def FILE_TYPE_MAPPINGS : FileTypeCategory → String
  | .image => "image/*"
  | .video => "video/*"
  | .audio => "audio/*"
  | .document => ".pdf,.doc,.docx,.txt,.rtf,.odt"
  | .all => "image/*,video/*,audio/*,.pdf,.doc,.docx,.txt,.rtf,.odt"

/-- The configuration props the state logic reads (subset of
`MediaUploaderProps`; purely visual props omitted).  Defaults as in the
source. -/
structure MediaUploaderProps where
  accept : Option String := none
  fileTypes : List FileTypeCategory := [.all]
  maxFiles : Nat := 10
  maxSize : Nat := 10
  singleFile : Bool := false
  autoUpload : Bool := true

/-- The four `useState` pools, plus two pieces of model bookkeeping:
`hostFiles` records the most recent host-supplied `existingFiles` prop
(fixed here: no re-supply operation is modelled), and `sweepOn` records
whether the grace-window sweep interval is currently scheduled (maintained
by replaying the sweep `useEffect`, whose dependency is
`undoableRemovals.length`). -/
structure State where
  uploadedFiles : List UploadedFile
  displayExistingFiles : List DisplayFile
  removedImageIds : List Int
  undoableRemovals : List UndoableRemoval
  hostFiles : List MediaType
  sweepOn : Bool
deriving DecidableEq, Repr

/-- On mount, the existing-files effect maps the host list (tagging each
entry `isNew = false`) into `displayExistingFiles`; the sweep effect runs
with an empty pending set and schedules nothing. -/
def initState (host : List MediaType) : State :=
  { uploadedFiles := []
    displayExistingFiles := host
    removedImageIds := []
    undoableRemovals := []
    hostFiles := host
    sweepOn := false }

/-- `accept.replace("*", ".*")` on the pattern fragment: JS `String.replace`
with a string pattern replaces only the first occurrence. -/
def jsReplaceFirst : List Char → List Char
  | [] => []
  | c :: cs => if c = '*' then '.' :: '*' :: cs else c :: jsReplaceFirst cs

def atomMatch (p c : Char) : Bool := p = '.' || p = c

/-- Fuel-driven core of the anchored matcher (structural recursion on the
fuel keeps it kernel-computable).  Every step shortens the pattern (keeping
the input) or shortens the input, so fuel `p.length + s.length + 1` always
suffices. -/
def rmatchF : Nat → List Char → List Char → Bool
  | 0, _, _ => false
  | _ + 1, [], [] => true
  | _ + 1, [], _ :: _ => false
  | fuel + 1, p :: '*' :: ps, s =>
      rmatchF fuel ps s ||
        (match s with
         | [] => false
         | c :: s2 => atomMatch p c && rmatchF fuel (p :: '*' :: ps) s2)
  | _ + 1, _ :: _, [] => false
  | fuel + 1, p :: ps, c :: s2 => atomMatch p c && rmatchF fuel ps s2

/-- Anchored matcher for the regex fragment the component builds
(`"^" + fragment + "$"` where the fragment is literal characters, `.`
matching any character, and the single `*` turned into `.*`). -/
def rmatch (p s : List Char) : Bool := rmatchF (p.length + s.length + 1) p s

/-- `acceptString`: the `useMemo` combining `accept` and `fileTypes`. -/
def acceptString (props : MediaUploaderProps) : String :=
  match props.accept with
  | some a => a
  | none =>
    if props.fileTypes.contains .all then FILE_TYPE_MAPPINGS .all
    else String.intercalate "," (props.fileTypes.map FILE_TYPE_MAPPINGS)

/-- JS `String.prototype.split(",")`, on character lists (the JS string
methods the component calls are modelled structurally on character lists so
that they are computable). -/
def splitOnComma : List Char → List (List Char)
  | [] => [[]]
  | c :: rest =>
    if c = ',' then [] :: splitOnComma rest
    else
      match splitOnComma rest with
      | [] => [[c]]
      | h :: t => (c :: h) :: t

/-- JS `String.prototype.startsWith`, on character lists. -/
def startsWithChars : List Char → List Char → Bool
  | _, [] => true
  | [], _ :: _ => false
  | c :: l, d :: p => c == d && startsWithChars l p

/-- JS `String.prototype.endsWith`, on character lists. -/
def endsWithChars (l p : List Char) : Bool := startsWithChars l.reverse p.reverse

/-- JS `String.prototype.trim`, on character lists. -/
def jsTrim (l : List Char) : List Char :=
  ((l.dropWhile Char.isWhitespace).reverse.dropWhile Char.isWhitespace).reverse

/-- JS `String.prototype.toLowerCase`, on character lists. -/
def jsToLowerChars (l : List Char) : List Char := l.map Char.toLower

/-- `validateFile`: size check (MB cap), then accept-pattern check. -/
def validateFile (props : MediaUploaderProps) (file : RawFile) : Option String :=
  if file.size > props.maxSize * 1024 * 1024 then
    some ("File size must be less than " ++ toString props.maxSize ++ "MB")
  else if !(acceptString props == "*") &&
      !((splitOnComma (acceptString props).data).any fun t =>
        let trimmedType := jsTrim t
        if startsWithChars trimmedType ['.'] then
          endsWithChars (jsToLowerChars file.name.data) (jsToLowerChars trimmedType)
        else
          rmatch (jsReplaceFirst trimmedType) file.type.data) then
    some "File type not supported"
  else
    none

/-- `generatePreview`: images resolve to the FileReader result (possibly
`none` on reader error), everything else resolves to no preview.  The reader
result is an environmental input. -/
def generatePreview (file : RawFile) (readerResult : Option String) : Option String :=
  if startsWithChars file.type.data "image/".data then readerResult else none

/-- `getTotalFileCount`. -/
def getTotalFileCount (s : State) : Nat :=
  s.displayExistingFiles.length + s.uploadedFiles.length

/-- The `UploadedFile` record built for one processed file inside
`processFiles`. -/
def buildUploadedFile (props : MediaUploaderProps) (file : RawFile)
    (generatedId : String) (readerResult : Option String) : UploadedFile :=
  { id := generatedId
    name := file.name
    file := file
    preview := generatePreview file readerResult
    progress := 0
    error := validateFile props file
    uploaded := false }

/-- `allNewUploaded`: the derived batch-resolution flag. -/
def allNewUploaded (s : State) : Bool :=
  decide (s.uploadedFiles.length > 0) &&
    s.uploadedFiles.all (fun f => f.uploaded || f.error.isSome)

/-- `allFiles`: the ordered display list (`useMemo`). -/
def allFiles (s : State) : List FileItem :=
  s.displayExistingFiles.map .existing ++ s.uploadedFiles.map .newFile

/-- Result of one event handler / timer callback: the next state, the
callback events it emitted directly, and whether it called
`setUploadedFiles` (every such call in the source builds a fresh array, so
this is exactly "the `uploadedFiles` dependency changed by reference"). -/
structure StepOut where
  state : State
  events : List Event
  touched : Bool
deriving Repr

/-- `processFiles`: the add-batch handler.  `generatedIds i` / `readerResults
i` are the environmental id and FileReader result for the i-th processed
file. -/
def processFiles (props : MediaUploaderProps) (s : State) (files : List RawFile)
    (generatedIds : Nat → String) (readerResults : Nat → Option String) : StepOut :=
  let currentCount := getTotalFileCount s
  let availableSlots : Int := (props.maxFiles : Int) - currentCount
  if props.singleFile && decide (currentCount > 0) then
    { state := s, events := [.error "Only one file allowed. Remove existing file first."],
      touched := false }
  else if availableSlots ≤ 0 then
    { state := s,
      events := [.error ("Maximum " ++ toString props.maxFiles ++ " files allowed")],
      touched := false }
  else
    let filesToProcess := files.take availableSlots.toNat
    let newUploadedFiles := filesToProcess.enum.map fun pr =>
      buildUploadedFile props pr.2 (generatedIds pr.1) (readerResults pr.1)
    let s1 :=
      if props.singleFile then
        { s with uploadedFiles := newUploadedFiles, displayExistingFiles := [] }
      else
        { s with uploadedFiles := s.uploadedFiles ++ newUploadedFiles }
    let validFiles := (newUploadedFiles.filter (fun f => f.error.isNone)).map (·.file)
    let events :=
      if validFiles.length > 0 then
        [Event.filesChange (s.uploadedFiles.map (·.file) ++ validFiles)]
      else []
    { state := s1, events := events, touched := true }

/-- `removeNewFile`: `onFilesChange` is called inside the state updater with
the filtered list, whether or not the id was present. -/
def removeNewFile (s : State) (fileId : String) : StepOut :=
  let updated := s.uploadedFiles.filter (fun f => !(f.id == fileId))
  { state := { s with uploadedFiles := updated },
    events := [.filesChange (updated.map (·.file))],
    touched := true }

/-- `removeExistingFile`: moves the file into the undoable removals with the
current timestamp and notifies the host optimistically. -/
def removeExistingFile (s : State) (file : DisplayFile) (now : Int) : StepOut :=
  { state :=
      { s with
        undoableRemovals := s.undoableRemovals ++ [⟨file.id, file, now⟩]
        displayExistingFiles :=
          s.displayExistingFiles.filter (fun f => !(f.id == file.id)) }
    events := [.existingFileRemove file]
    touched := false }

/-- `undoRemoval`: restores the wrapped file by appending it to the active
remote list. -/
def undoRemoval (s : State) (fileId : Int) : StepOut :=
  match s.undoableRemovals.find? (fun r => r.id == fileId) with
  | some r =>
    { state :=
        { s with
          displayExistingFiles := s.displayExistingFiles ++ [r.file]
          undoableRemovals := s.undoableRemovals.filter (fun q => !(q.id == fileId)) }
      events := [], touched := false }
  | none => { state := s, events := [], touched := false }

/-- `confirmRemoval`: unconditionally appends the id to the confirmed list
(the UI only offers this button for a pending entry). -/
def confirmRemoval (s : State) (fileId : Int) : StepOut :=
  { state :=
      { s with
        undoableRemovals := s.undoableRemovals.filter (fun q => !(q.id == fileId))
        removedImageIds := s.removedImageIds ++ [fileId] }
    events := [], touched := false }

/-- `clearAll`. -/
def clearAll (s : State) : StepOut :=
  { state := { s with uploadedFiles := [], displayExistingFiles := [] }
    events := [.filesChange []]
    touched := true }

/-- One `simulateUpload` interval callback writing through to the pool: the
interval's local `progress` variable coincides with the stored progress of
the (still present) file, advances by `amount = Math.random() * 25`, and is
clamped to 100 with `uploaded := true` on completion. -/
def progressTick (s : State) (fileId : String) (amount : Rat) : StepOut :=
  { state :=
      { s with
        uploadedFiles := s.uploadedFiles.map fun f =>
          if f.id == fileId then
            if f.progress + amount ≥ 100 then { f with progress := 100, uploaded := true }
            else { f with progress := f.progress + amount }
          else f }
    events := [], touched := true }

/-- One tick of the grace-window sweep interval: entries whose remaining
time `removedAt + 10000 - now` is ≤ 0 leave the pending set and their ids
are appended (in order) to the confirmed list. -/
def sweepTick (s : State) (now : Int) : StepOut :=
  let expired := s.undoableRemovals.filter (fun r => r.removedAt + 10000 - now ≤ 0)
  { state :=
      { s with
        undoableRemovals :=
          s.undoableRemovals.filter (fun r => !(r.removedAt + 10000 - now ≤ 0))
        removedImageIds := s.removedImageIds ++ expired.map (·.id) }
    events := [], touched := false }

/-- User / environment operations driving the widget. -/
inductive Op where
  | add (files : List RawFile) (generatedIds : Nat → String)
      (readerResults : Nat → Option String)
  | removeNew (fileId : String)
  | removeExisting (file : DisplayFile) (now : Int)
  | undo (fileId : Int)
  | confirm (fileId : Int)
  | clear
  | tick (fileId : String) (amount : Rat)
  | sweep (now : Int)

/-- Dispatch of one operation to its handler. -/
def rawStep (props : MediaUploaderProps) (s : State) : Op → StepOut
  | .add files ids previews => processFiles props s files ids previews
  | .removeNew fileId => removeNewFile s fileId
  | .removeExisting file now => removeExistingFile s file now
  | .undo fileId => undoRemoval s fileId
  | .confirm fileId => confirmRemoval s fileId
  | .clear => clearAll s
  | .tick fileId amount => progressTick s fileId amount
  | .sweep now => sweepTick s now

/-- One operation followed by the two `useEffect` hooks, replayed with
React's dependency semantics:
* the completion effect (deps `[allNewUploaded, uploadedFiles]`) re-runs
  exactly when the operation wrote the pool array, and then invokes
  `onUploadComplete` with the uploaded files if the batch is resolved with
  at least one success;
* the sweep effect (dep `[undoableRemovals.length]`) re-runs exactly when
  the pending-deletion count changed, tearing down the old interval and
  scheduling a new one only for a non-empty pending set. -/
def applyOp (props : MediaUploaderProps) (s : State) (op : Op) : StepOut :=
  let out := rawStep props s op
  let completionEvents :=
    if out.touched && allNewUploaded out.state &&
        out.state.uploadedFiles.any (·.uploaded) then
      [Event.uploadComplete (out.state.uploadedFiles.filter (·.uploaded))]
    else []
  { state :=
      { out.state with
        sweepOn :=
          if out.state.undoableRemovals.length ≠ s.undoableRemovals.length then
            decide (out.state.undoableRemovals.length ≠ 0)
          else s.sweepOn }
    events := out.events ++ completionEvents
    touched := out.touched }

/-- UI enabling of operations: remove / confirm buttons exist only for
rendered entries, tick increments are `Math.random() * 25 ∈ [0, 25)`, the
sweep interval fires only while scheduled. -/
def Enabled (s : State) : Op → Prop
  | .add _ _ _ => True
  | .removeNew fileId => fileId ∈ s.uploadedFiles.map (·.id)
  | .removeExisting file _ => file ∈ s.displayExistingFiles
  | .undo _ => True
  | .confirm fileId => fileId ∈ s.undoableRemovals.map (·.id)
  | .clear => True
  | .tick _ amount => 0 ≤ amount ∧ amount < 25
  | .sweep _ => s.sweepOn = true

/-- States reachable from a freshly mounted widget by enabled operations
drawn from `allow`. -/
inductive Reachable (props : MediaUploaderProps) (host : List MediaType)
    (allow : Op → Prop) : State → Prop where
  | init : Reachable props host allow (initState host)
  | step {s : State} {op : Op} : Reachable props host allow s → Enabled s op →
      allow op → Reachable props host allow (applyOp props s op).state

/-- Restriction used by the amended C4: every operation except `clear`. -/
def NoClear : Op → Prop
  | .clear => False
  | _ => True

/-- Restriction used by the amended C8: every operation except `undo`. -/
def NoUndo : Op → Prop
  | .undo _ => False
  | _ => True

/-- The local closure state of one `simulateUpload` interval: its `progress`
variable and whether the completion branch has run (which also clears the
interval). -/
structure SimFile where
  progress : Rat
  uploaded : Bool
deriving DecidableEq, Repr

def simInit : SimFile := { progress := 0, uploaded := false }

/-- One interval callback of `simulateUpload`:
`progress += Math.random() * 25`, clamped to exactly 100 with
`uploaded := true` on reaching 100. -/
def simStep (f : SimFile) (amount : Rat) : SimFile :=
  if f.progress + amount ≥ 100 then { progress := 100, uploaded := true }
  else { f with progress := f.progress + amount }

/-- A run of `simulateUpload` under a given sequence of random increments;
the interval is cleared (no further ticks) once the completion branch has
run. -/
def simRun : List Rat → SimFile → SimFile
  | [], f => f
  | amount :: rest, f => if f.uploaded then f else simRun rest (simStep f amount)

/-- The `onFilesChange` payloads among a list of emitted events. -/
def filesChangePayloads (events : List Event) : List (List RawFile) :=
  events.filterMap fun e => match e with
    | .filesChange fs => some fs
    | _ => none

/-- The `onError` messages among a list of emitted events. -/
def errorMessages (events : List Event) : List String :=
  events.filterMap fun e => match e with
    | .error m => some m
    | _ => none

/-- The `onUploadComplete` payloads among a list of emitted events. -/
def uploadCompletePayloads (events : List Event) : List (List UploadedFile) :=
  events.filterMap fun e => match e with
    | .uploadComplete fs => some fs
    | _ => none

def activeIds (s : State) : List Int := s.displayExistingFiles.map (·.id)

def pendingIds (s : State) : List Int := s.undoableRemovals.map (·.id)

def hostIds (s : State) : List Int := s.hostFiles.map (·.id)

/-- The claimed pool invariant: the union of the active remote set and the
pending-deletion entries equals the most recent host-supplied remote set
minus the permanently confirmed deletions (as sets of host ids). -/
def coreInvariant (s : State) : Prop :=
  ∀ i : Int, (i ∈ activeIds s ∨ i ∈ pendingIds s) ↔
    (i ∈ hostIds s ∧ i ∉ s.removedImageIds)

/-- Auxiliary structural invariant, inductive over the full operation set:
no id occurs twice across the active and pending pools, no such id is
already confirmed, and every pending entry's wrapped file carries the
entry's id. -/
def IdsInv (s : State) : Prop :=
  (activeIds s ++ pendingIds s).Nodup ∧
    (∀ i, i ∈ activeIds s ++ pendingIds s → i ∉ s.removedImageIds) ∧
    (∀ r ∈ s.undoableRemovals, r.file.id = r.id)

/-- Run a list of operations (dropping the emitted events). -/
def runOps (props : MediaUploaderProps) (s : State) (ops : List Op) : State :=
  List.foldl (fun t op => (applyOp props t op).state) s ops

/-- Fixtures used by the concrete counterexamples and witnesses. -/
def propsStar : MediaUploaderProps :=
  { accept := some "*", fileTypes := [.all], maxFiles := 10, maxSize := 10,
    singleFile := false, autoUpload := true }

def propsMax2 : MediaUploaderProps :=
  { accept := some "*", fileTypes := [.all], maxFiles := 2, maxSize := 10,
    singleFile := false, autoUpload := true }

def rawA : RawFile := { name := "a.png", size := 100, type := "image/png" }

def rawB : RawFile := { name := "b.png", size := 200, type := "image/png" }

def rawC : RawFile := { name := "c.png", size := 300, type := "image/png" }

/-- A 50MB file, oversized for `maxSize = 10`. -/
def rawBig : RawFile := { name := "big.bin", size := 50 * 1024 * 1024, type := "application/zip" }

def mediaOne : MediaType :=
  { id := 1, file_name := "one.jpg", size := 10, mime_type := "image/jpeg", url := "https://h/1" }

def mediaTwo : MediaType :=
  { id := 2, file_name := "two.jpg", size := 20, mime_type := "image/jpeg", url := "https://h/2" }

def idsAB : Nat → String := fun n => if n = 0 then "ua" else "ub"

def noPreviews : Nat → Option String := fun _ => none

/-- The local pending record for `rawA` (valid) at a given progress. -/
def uFileA (p : Rat) (up : Bool) : UploadedFile :=
  { id := "ua", name := "a.png", file := rawA, preview := none, progress := p,
    error := none, uploaded := up }

/-- The local pending record for the oversized `rawBig` (validation error). -/
def uFileBig : UploadedFile :=
  { id := "ub", name := "big.bin", file := rawBig, preview := none, progress := 0,
    error := some "File size must be less than 10MB", uploaded := false }

/-- The widget state holding the two-file batch (valid file at progress `p`,
oversized file errored), no remote files. -/
def mixedState (p : Rat) (up : Bool) : State :=
  { uploadedFiles := [uFileA p up, uFileBig], displayExistingFiles := []
    removedImageIds := [], undoableRemovals := [], hostFiles := [], sweepOn := false }

/-- The state with one pending removal, used by concrete witnesses. -/
def pendState : State :=
  (applyOp propsStar (initState [mediaOne]) (.removeExisting mediaOne 0)).state

def pendEntry : UndoableRemoval := ⟨1, mediaOne, 0⟩

lemma mem_activeIds_filter (l : List DisplayFile) (i j : Int) :
    i ∈ (l.filter fun g => !(g.id == j)).map (·.id) ↔ i ∈ l.map (·.id) ∧ i ≠ j := by
  simp only [List.mem_map, List.mem_filter, Bool.not_eq_true', beq_eq_false_iff_ne]
  constructor
  · rintro ⟨g, ⟨hg, hne⟩, rfl⟩
    exact ⟨⟨g, hg, rfl⟩, hne⟩
  · rintro ⟨⟨g, hg, rfl⟩, hne⟩
    exact ⟨g, ⟨hg, hne⟩, rfl⟩

lemma mem_pendingIds_filter (l : List UndoableRemoval) (i j : Int) :
    i ∈ (l.filter fun q => !(q.id == j)).map (·.id) ↔ i ∈ l.map (·.id) ∧ i ≠ j := by
  simp only [List.mem_map, List.mem_filter, Bool.not_eq_true', beq_eq_false_iff_ne]
  constructor
  · rintro ⟨q, ⟨hq, hne⟩, rfl⟩
    exact ⟨⟨q, hq, rfl⟩, hne⟩
  · rintro ⟨⟨q, hq, rfl⟩, hne⟩
    exact ⟨q, ⟨hq, hne⟩, rfl⟩

lemma nodup_move_to_pending {A' A P : List Int} {j : Int} (h : (A ++ P).Nodup)
    (hsub : A'.Sublist A) (hj : j ∈ A) (hjA' : j ∉ A') : (A' ++ (P ++ [j])).Nodup := by
  rw [List.nodup_append] at h
  obtain ⟨hA, hP, hdisj⟩ := h
  rw [List.nodup_append]
  refine ⟨hA.sublist hsub, ?_, ?_⟩
  · rw [List.nodup_append]
    refine ⟨hP, List.nodup_singleton j, ?_⟩
    intro a haP haj
    rw [List.mem_singleton] at haj
    exact hdisj hj (haj ▸ haP)
  · intro a haA' ha
    rcases List.mem_append.mp ha with haP | haj
    · exact hdisj (hsub.subset haA') haP
    · rw [List.mem_singleton] at haj
      exact hjA' (haj ▸ haA')

lemma nodup_move_to_active {A P' P : List Int} {j : Int} (h : (A ++ P).Nodup)
    (hsub : P'.Sublist P) (hj : j ∈ P) (hjP' : j ∉ P') : ((A ++ [j]) ++ P').Nodup := by
  rw [List.nodup_append] at h
  obtain ⟨hA, hP, hdisj⟩ := h
  rw [List.nodup_append]
  refine ⟨?_, hP.sublist hsub, ?_⟩
  · rw [List.nodup_append]
    refine ⟨hA, List.nodup_singleton j, ?_⟩
    intro a haA haj
    rw [List.mem_singleton] at haj
    exact hdisj haA (haj ▸ hj)
  · intro a haAj haP'
    rcases List.mem_append.mp haAj with haA | haj
    · exact hdisj haA (hsub.subset haP')
    · rw [List.mem_singleton] at haj
      exact hjP' (haj ▸ haP')

/-- Distinct pending ids separate the swept-out entries from the kept ones. -/
lemma sweep_ids_disjoint (l : List UndoableRemoval) (p : UndoableRemoval → Bool)
    (hnd : (l.map (·.id)).Nodup) (i : Int)
    (h1 : i ∈ (l.filter fun r => !(p r)).map (·.id)) :
    i ∉ (l.filter p).map (·.id) := by
  simp only [List.mem_map, List.mem_filter, Bool.not_eq_true'] at h1 ⊢
  rintro ⟨r2, ⟨hr2, hp2⟩, hid2⟩
  obtain ⟨r1, ⟨hr1, hp1⟩, hid1⟩ := h1
  have : r1 = r2 := List.inj_on_of_nodup_map hnd hr1 hr2 (hid1.trans hid2.symm)
  rw [this, hp2] at hp1
  simp at hp1

lemma idsInv_emptyActive {s : State} (h : IdsInv s) (X : List UploadedFile) :
    IdsInv { s with uploadedFiles := X, displayExistingFiles := [] } := by
  obtain ⟨h1, h2, h3⟩ := h
  refine ⟨?_, ?_, h3⟩
  · simpa [activeIds, pendingIds] using (List.nodup_append.mp h1).2.1
  · intro i hi
    apply h2
    simp only [activeIds, pendingIds, List.map_nil, List.nil_append, List.mem_append] at hi ⊢
    exact Or.inr hi


lemma idsInv_setUploads {s : State} (h : IdsInv s) (X : List UploadedFile) :
    IdsInv { s with uploadedFiles := X } := h

lemma idsInv_processFiles (props : MediaUploaderProps) (s : State) (files : List RawFile)
    (ids : Nat → String) (previews : Nat → Option String) (h : IdsInv s) :
    IdsInv (processFiles props s files ids previews).state := by
  simp only [processFiles]
  split_ifs with hc1 hc2 hc3
  · exact h
  · exact h
  · exact idsInv_emptyActive h _
  · exact idsInv_emptyActive h _
  · exact h
  · exact h

lemma idsInv_applyOp (props : MediaUploaderProps) {s : State} (op : Op)
    (h : IdsInv s) (hen : Enabled s op) : IdsInv (applyOp props s op).state := by
  show IdsInv (rawStep props s op).state
  obtain ⟨h1, h2, h3⟩ := h
  cases op with
  | add files ids previews => exact idsInv_processFiles props s files ids previews ⟨h1, h2, h3⟩
  | removeNew fid => exact idsInv_setUploads ⟨h1, h2, h3⟩ _
  | tick fid amount => exact idsInv_setUploads ⟨h1, h2, h3⟩ _
  | clear =>
    show IdsInv { s with uploadedFiles := [], displayExistingFiles := [] }
    exact idsInv_emptyActive ⟨h1, h2, h3⟩ []
  | removeExisting file now =>
    have hen' : file ∈ s.displayExistingFiles := hen
    show IdsInv
      { s with
        undoableRemovals := s.undoableRemovals ++ [(⟨file.id, file, now⟩ : UndoableRemoval)]
        displayExistingFiles := s.displayExistingFiles.filter fun f => !(f.id == file.id) }
    refine ⟨?_, ?_, ?_⟩
    · show ((s.displayExistingFiles.filter fun f => !(f.id == file.id)).map (·.id) ++
        (s.undoableRemovals ++ [(⟨file.id, file, now⟩ : UndoableRemoval)]).map (·.id)).Nodup
      rw [List.map_append]
      exact nodup_move_to_pending h1
        ((List.filter_sublist s.displayExistingFiles).map _)
        (List.mem_map_of_mem _ hen')
        (fun hc => ((mem_activeIds_filter _ _ _).mp hc).2 rfl)
    · intro i hi
      apply h2
      simp only [activeIds, pendingIds, List.mem_append, List.map_append,
        List.map_cons, List.map_nil, List.mem_singleton] at hi ⊢
      rcases hi with hiA | hiP | hij
      · exact Or.inl ((mem_activeIds_filter _ _ _).mp hiA).1
      · exact Or.inr hiP
      · exact Or.inl (hij ▸ List.mem_map_of_mem _ hen')
    · intro r hr
      rcases List.mem_append.mp hr with hold | hnew
      · exact h3 r hold
      · rw [List.mem_singleton] at hnew
        subst hnew
        rfl
  | undo fid =>
    show IdsInv (undoRemoval s fid).state
    unfold undoRemoval
    cases hfind : s.undoableRemovals.find? (fun q => q.id == fid) with
    | none =>
      simp only [hfind]
      exact ⟨h1, h2, h3⟩
    | some r =>
      simp only [hfind]
      have hr_mem : r ∈ s.undoableRemovals := List.mem_of_find?_eq_some hfind
      have hp := List.find?_some hfind
      have hr_id : r.id = fid := by simpa using hp
      have hrf : r.file.id = fid := (h3 r hr_mem).trans hr_id
      have hfidP : fid ∈ pendingIds s := List.mem_map.mpr ⟨r, hr_mem, hr_id⟩
      refine ⟨?_, ?_, ?_⟩
      · show ((s.displayExistingFiles ++ [r.file]).map (·.id) ++
          (s.undoableRemovals.filter fun q => !(q.id == fid)).map (·.id)).Nodup
        rw [List.map_append]
        simp only [List.map_cons, List.map_nil, hrf]
        exact nodup_move_to_active h1
          ((List.filter_sublist s.undoableRemovals).map _)
          hfidP
          (fun hc => ((mem_pendingIds_filter _ _ _).mp hc).2 rfl)
      · intro i hi
        apply h2
        simp only [activeIds, pendingIds, List.mem_append, List.map_append,
          List.map_cons, List.map_nil, List.mem_singleton, hrf] at hi ⊢
        rcases hi with (hiA | hij) | hiP
        · exact Or.inl hiA
        · exact Or.inr (hij ▸ hfidP)
        · exact Or.inr ((mem_pendingIds_filter _ _ _).mp hiP).1
      · intro q hq
        exact h3 q (List.mem_filter.mp hq).1
  | confirm fid =>
    have hen' : fid ∈ pendingIds s := hen
    have hdisjAP := (List.nodup_append.mp h1).2.2
    show IdsInv
      { s with
        undoableRemovals := s.undoableRemovals.filter fun q => !(q.id == fid)
        removedImageIds := s.removedImageIds ++ [fid] }
    refine ⟨?_, ?_, ?_⟩
    · show (s.displayExistingFiles.map (·.id) ++
        (s.undoableRemovals.filter fun q => !(q.id == fid)).map (·.id)).Nodup
      exact h1.sublist
        ((((List.filter_sublist s.undoableRemovals).map _).append_left _))
    · intro i hi hic
      simp only [activeIds, pendingIds, List.mem_append] at hi
      have hine : i ≠ fid := by
        rcases hi with hiA | hiP
        · intro hEq
          exact hdisjAP hiA (hEq ▸ hen')
        · exact ((mem_pendingIds_filter _ _ _).mp hiP).2
      have hiold : i ∈ activeIds s ++ pendingIds s := by
        simp only [List.mem_append]
        rcases hi with hiA | hiP
        · exact Or.inl hiA
        · exact Or.inr ((mem_pendingIds_filter _ _ _).mp hiP).1
      rcases List.mem_append.mp hic with hC | hnew
      · exact h2 i hiold hC
      · rw [List.mem_singleton] at hnew
        exact hine hnew
    · intro q hq
      exact h3 q (List.mem_filter.mp hq).1
  | sweep now =>
    have hdisjAP := (List.nodup_append.mp h1).2.2
    have hPnd := (List.nodup_append.mp h1).2.1
    show IdsInv
      { s with
        undoableRemovals :=
          s.undoableRemovals.filter fun r => !(r.removedAt + 10000 - now ≤ 0)
        removedImageIds := s.removedImageIds ++
          (s.undoableRemovals.filter fun r => r.removedAt + 10000 - now ≤ 0).map (·.id) }
    refine ⟨?_, ?_, ?_⟩
    · show (s.displayExistingFiles.map (·.id) ++
        (s.undoableRemovals.filter fun r => !(r.removedAt + 10000 - now ≤ 0)).map (·.id)).Nodup
      exact h1.sublist
        ((((List.filter_sublist s.undoableRemovals).map _).append_left _))
    · intro i hi hic
      simp only [activeIds, pendingIds, List.mem_append] at hi
      have hiold : i ∈ activeIds s ++ pendingIds s := by
        simp only [List.mem_append]
        rcases hi with hiA | hiP
        · exact Or.inl hiA
        · refine Or.inr ?_
          rcases List.mem_map.mp hiP with ⟨q, hq, hid⟩
          exact List.mem_map.mpr ⟨q, (List.mem_filter.mp hq).1, hid⟩
      have hiE : i ∉ (s.undoableRemovals.filter fun r =>
          (r.removedAt + 10000 - now ≤ 0 : Bool)).map (·.id) := by
        rcases hi with hiA | hiP
        · intro hE
          rcases List.mem_map.mp hE with ⟨q, hq, hid⟩
          have : i ∈ pendingIds s :=
            List.mem_map.mpr ⟨q, (List.mem_filter.mp hq).1, hid⟩
          exact hdisjAP hiA this
        · exact sweep_ids_disjoint s.undoableRemovals _ hPnd i hiP
      rcases List.mem_append.mp hic with hC | hE
      · exact h2 i hiold hC
      · exact hiE hE
    · intro q hq
      exact h3 q (List.mem_filter.mp hq).1

/-- `IdsInv` holds in every reachable state (over any operation set),
provided the host supplied distinct ids. -/
lemma idsInv_of_reachable {props : MediaUploaderProps} {host : List MediaType}
    {allow : Op → Prop} {s : State} (hnd : (host.map (·.id)).Nodup)
    (hr : Reachable props host allow s) : IdsInv s := by
  induction hr with
  | init =>
    refine ⟨?_, ?_, ?_⟩
    · simpa [initState, activeIds, pendingIds] using hnd
    · intro i hi
      simp [initState]
    · intro r hr
      simp [initState] at hr
  | step hprev hen hallow ih => exact idsInv_applyOp _ _ ih hen

lemma coreInvariant_setUploads {s : State} (h : coreInvariant s) (X : List UploadedFile) :
    coreInvariant { s with uploadedFiles := X } := h

lemma coreInvariant_applyOp (props : MediaUploaderProps) {s : State} (op : Op)
    (hids : IdsInv s) (hcore : coreInvariant s) (hen : Enabled s op) (hnc : NoClear op) :
    coreInvariant (applyOp props s op).state := by
  show coreInvariant (rawStep props s op).state
  obtain ⟨h1, h2, h3⟩ := hids
  cases op with
  | clear => exact hnc.elim
  | removeNew fid => exact coreInvariant_setUploads hcore _
  | tick fid amount => exact coreInvariant_setUploads hcore _
  | add files ids previews =>
    show coreInvariant (processFiles props s files ids previews).state
    simp only [processFiles]
    split_ifs with hc1 hc2 hc3
    · exact hcore
    · exact hcore
    all_goals try exact coreInvariant_setUploads hcore _
    all_goals {
      have hc0 : getTotalFileCount s = 0 := by
        by_cases hgt : getTotalFileCount s > 0
        · exact absurd (by simp [hc3, hgt]) hc1
        · omega
      have hdisp : s.displayExistingFiles = [] := by
        have hlen : s.displayExistingFiles.length = 0 := by
          unfold getTotalFileCount at hc0
          omega
        exact List.length_eq_zero.mp hlen
      intro i
      have hold := hcore i
      simp only [activeIds, pendingIds, hostIds, hdisp, List.map_nil] at hold ⊢
      exact hold }
  | removeExisting file now =>
    have hen' : file ∈ s.displayExistingFiles := hen
    show coreInvariant
      { s with
        undoableRemovals := s.undoableRemovals ++ [(⟨file.id, file, now⟩ : UndoableRemoval)]
        displayExistingFiles := s.displayExistingFiles.filter fun f => !(f.id == file.id) }
    intro i
    have hold := hcore i
    have hmemP : i ∈ (s.undoableRemovals ++ [(⟨file.id, file, now⟩ : UndoableRemoval)]).map (·.id) ↔
        i ∈ pendingIds s ∨ i = file.id := by
      rw [List.map_append]
      simp [pendingIds]
    constructor
    · intro hL
      apply hold.mp
      rcases hL with hA | hP
      · exact Or.inl ((mem_activeIds_filter _ _ _).mp hA).1
      · rcases hmemP.mp hP with hP0 | hij
        · exact Or.inr hP0
        · exact Or.inl (hij ▸ List.mem_map_of_mem _ hen')
    · intro hR
      rcases hold.mpr hR with hA | hP
      · by_cases hij : i = file.id
        · exact Or.inr (hmemP.mpr (Or.inr hij))
        · exact Or.inl ((mem_activeIds_filter _ _ _).mpr ⟨hA, hij⟩)
      · exact Or.inr (hmemP.mpr (Or.inl hP))
  | undo fid =>
    show coreInvariant (undoRemoval s fid).state
    unfold undoRemoval
    cases hfind : s.undoableRemovals.find? (fun q => q.id == fid) with
    | none =>
      simp only [hfind]
      exact hcore
    | some r =>
      simp only [hfind]
      have hr_mem : r ∈ s.undoableRemovals := List.mem_of_find?_eq_some hfind
      have hp := List.find?_some hfind
      have hr_id : r.id = fid := by simpa using hp
      have hrf : r.file.id = fid := (h3 r hr_mem).trans hr_id
      have hfidP : fid ∈ pendingIds s := List.mem_map.mpr ⟨r, hr_mem, hr_id⟩
      intro i
      have hold := hcore i
      have hmemA : i ∈ (s.displayExistingFiles ++ [r.file]).map (·.id) ↔
          i ∈ activeIds s ∨ i = fid := by
        rw [List.map_append]
        simp [activeIds, hrf]
      constructor
      · intro hL
        apply hold.mp
        rcases hL with hA | hP
        · rcases hmemA.mp hA with hA0 | hij
          · exact Or.inl hA0
          · exact Or.inr (hij ▸ hfidP)
        · exact Or.inr ((mem_pendingIds_filter _ _ _).mp hP).1
      · intro hR
        rcases hold.mpr hR with hA | hP
        · exact Or.inl (hmemA.mpr (Or.inl hA))
        · by_cases hij : i = fid
          · exact Or.inl (hmemA.mpr (Or.inr hij))
          · exact Or.inr ((mem_pendingIds_filter _ _ _).mpr ⟨hP, hij⟩)
  | confirm fid =>
    have hen' : fid ∈ pendingIds s := hen
    have hdisjAP := (List.nodup_append.mp h1).2.2
    show coreInvariant
      { s with
        undoableRemovals := s.undoableRemovals.filter fun q => !(q.id == fid)
        removedImageIds := s.removedImageIds ++ [fid] }
    intro i
    have hold := hcore i
    constructor
    · intro hL
      have hLold : i ∈ activeIds s ∨ i ∈ pendingIds s := by
        rcases hL with hA | hP
        · exact Or.inl hA
        · exact Or.inr ((mem_pendingIds_filter _ _ _).mp hP).1
      have hine : i ≠ fid := by
        rcases hL with hA | hP
        · intro hEq
          exact hdisjAP hA (hEq ▸ hen')
        · exact ((mem_pendingIds_filter _ _ _).mp hP).2
      obtain ⟨hH, hC⟩ := hold.mp hLold
      refine ⟨hH, ?_⟩
      intro hc
      rcases List.mem_append.mp hc with hc0 | hc1
      · exact hC hc0
      · rw [List.mem_singleton] at hc1
        exact hine hc1
    · rintro ⟨hH, hC'⟩
      have hC : i ∉ s.removedImageIds := fun hc => hC' (List.mem_append.mpr (Or.inl hc))
      have hine : i ≠ fid := fun hEq =>
        hC' (List.mem_append.mpr (Or.inr (List.mem_singleton.mpr hEq)))
      rcases hold.mpr ⟨hH, hC⟩ with hA | hP
      · exact Or.inl hA
      · exact Or.inr ((mem_pendingIds_filter _ _ _).mpr ⟨hP, hine⟩)
  | sweep now =>
    have hdisjAP := (List.nodup_append.mp h1).2.2
    have hPnd := (List.nodup_append.mp h1).2.1
    show coreInvariant
      { s with
        undoableRemovals :=
          s.undoableRemovals.filter fun r => !(r.removedAt + 10000 - now ≤ 0)
        removedImageIds := s.removedImageIds ++
          (s.undoableRemovals.filter fun r => r.removedAt + 10000 - now ≤ 0).map (·.id) }
    intro i
    have hold := hcore i
    constructor
    · intro hL
      have hLold : i ∈ activeIds s ∨ i ∈ pendingIds s := by
        rcases hL with hA | hP
        · exact Or.inl hA
        · refine Or.inr ?_
          rcases List.mem_map.mp hP with ⟨q, hq, hid⟩
          exact List.mem_map.mpr ⟨q, (List.mem_filter.mp hq).1, hid⟩
      have hiE : i ∉ (s.undoableRemovals.filter fun r =>
          (r.removedAt + 10000 - now ≤ 0 : Bool)).map (·.id) := by
        rcases hL with hA | hP
        · intro hE
          rcases List.mem_map.mp hE with ⟨q, hq, hid⟩
          exact hdisjAP hA (List.mem_map.mpr ⟨q, (List.mem_filter.mp hq).1, hid⟩)
        · exact sweep_ids_disjoint s.undoableRemovals _ hPnd i hP
      obtain ⟨hH, hC⟩ := hold.mp hLold
      refine ⟨hH, ?_⟩
      intro hc
      rcases List.mem_append.mp hc with hc0 | hc1
      · exact hC hc0
      · exact hiE hc1
    · rintro ⟨hH, hC'⟩
      have hC : i ∉ s.removedImageIds := fun hc => hC' (List.mem_append.mpr (Or.inl hc))
      have hiE : i ∉ (s.undoableRemovals.filter fun r =>
          (r.removedAt + 10000 - now ≤ 0 : Bool)).map (·.id) :=
        fun hE => hC' (List.mem_append.mpr (Or.inr hE))
      rcases hold.mpr ⟨hH, hC⟩ with hA | hP
      · exact Or.inl hA
      · refine Or.inr ?_
        rcases List.mem_map.mp hP with ⟨q, hq, hid⟩
        have hqexp : (q.removedAt + 10000 - now ≤ 0 : Bool) = false := by
          by_cases hqe : (q.removedAt + 10000 - now ≤ 0 : Bool) = true
          · exact absurd (List.mem_map.mpr ⟨q, List.mem_filter.mpr ⟨hq, hqe⟩, hid⟩) hiE
          · exact Bool.not_eq_true _ ▸ hqe
        exact List.mem_map.mpr ⟨q, List.mem_filter.mpr ⟨hq, by simpa using hqexp⟩, hid⟩

lemma simRun_frozen (l : List Rat) (f : SimFile) (h : f.uploaded = true) :
    simRun l f = f := by
  cases l with
  | nil => rfl
  | cons a rest => simp [simRun, h]

lemma simRun_append (l1 l2 : List Rat) : ∀ f, simRun (l1 ++ l2) f = simRun l2 (simRun l1 f) := by
  induction l1 with
  | nil => intro f; rfl
  | cons a rest ih =>
    intro f
    by_cases h : f.uploaded = true
    · simp [simRun, h, simRun_frozen _ _ h]
    · simp [simRun, h, ih]

lemma simRun_facts (l : List Rat) : ∀ f : SimFile, (∀ a ∈ l, 0 ≤ a) →
    (f.uploaded = false → f.progress < 100) → (f.uploaded = true → f.progress = 100) →
    0 ≤ f.progress →
    f.progress ≤ (simRun l f).progress ∧
    ((simRun l f).uploaded = false → (simRun l f).progress < 100) ∧
    ((simRun l f).uploaded = true → (simRun l f).progress = 100) ∧
    0 ≤ (simRun l f).progress := by
  induction l with
  | nil =>
    intro f _ hf hu h0
    exact ⟨le_refl _, hf, hu, h0⟩
  | cons a rest ih =>
    intro f hnn hf hu h0
    by_cases hup : f.uploaded = true
    · rw [show simRun (a :: rest) f = f from by simp [simRun, hup]]
      exact ⟨le_refl _, hf, hu, h0⟩
    · have hupf : f.uploaded = false := by
        revert hup
        cases f.uploaded <;> simp
      have ha : 0 ≤ a := hnn a (List.mem_cons_self a rest)
      have hrest : ∀ b ∈ rest, 0 ≤ b := fun b hb => hnn b (List.mem_cons_of_mem a hb)
      rw [show simRun (a :: rest) f = simRun rest (simStep f a) from by simp [simRun, hupf]]
      by_cases hge : f.progress + a ≥ 100
      · have hstep : simStep f a = ⟨100, true⟩ := by simp [simStep, hge]
        rw [hstep]
        obtain ⟨c1, c2, c3, c4⟩ := ih ⟨100, true⟩ hrest (by intro hc; simp at hc)
          (fun _ => rfl) (by norm_num)
        refine ⟨?_, c2, c3, c4⟩
        exact le_trans (le_of_lt (hf hupf)) c1
      · have hlt : f.progress + a < 100 := lt_of_not_ge hge
        have hstep : simStep f a = { f with progress := f.progress + a } := by
          simp [simStep, hge]
        rw [hstep]
        obtain ⟨c1, c2, c3, c4⟩ := ih { f with progress := f.progress + a } hrest
          (fun _ => hlt) (fun hc => absurd hc (by rw [show ({ f with progress := f.progress + a } : SimFile).uploaded = false from hupf]; simp))
          (add_nonneg h0 ha)
        refine ⟨?_, c2, c3, c4⟩
        exact le_trans (le_add_of_nonneg_right ha) c1

lemma simRun_bound (eps : Rat) : ∀ (l : List Rat) (f : SimFile),
    (∀ a ∈ l, eps ≤ a) → f.uploaded = false → f.progress < 100 →
    (100 : Rat) ≤ f.progress + eps * l.length → (simRun l f).uploaded = true := by
  intro l
  induction l with
  | nil =>
    intro f _ hupf hlt hbound
    simp only [List.length_nil, Nat.cast_zero, mul_zero, add_zero] at hbound
    exact absurd hbound (not_le.mpr hlt)
  | cons a rest ih =>
    intro f hlb hupf hlt hbound
    rw [show simRun (a :: rest) f = simRun rest (simStep f a) from by simp [simRun, hupf]]
    by_cases hge : f.progress + a ≥ 100
    · have hstep : simStep f a = ⟨100, true⟩ := by simp [simStep, hge]
      rw [hstep, simRun_frozen rest _ rfl]
    · have hstep : simStep f a = { f with progress := f.progress + a } := by
        simp [simStep, hge]
      rw [hstep]
      have ha : eps ≤ a := hlb a (List.mem_cons_self a rest)
      have hcast : f.progress + eps * ((a :: rest).length : Rat) =
          f.progress + eps * (rest.length : Rat) + eps := by
        push_cast [List.length_cons]
        ring
      refine ih { f with progress := f.progress + a }
        (fun b hb => hlb b (List.mem_cons_of_mem a hb)) hupf (lt_of_not_ge hge) ?_
      show (100 : Rat) ≤ f.progress + a + eps * (rest.length : Rat)
      rw [hcast] at hbound
      linarith

lemma uploadCompletePayloads_append (l1 l2 : List Event) :
    uploadCompletePayloads (l1 ++ l2) =
      uploadCompletePayloads l1 ++ uploadCompletePayloads l2 := by
  simp [uploadCompletePayloads]

/-- No event handler emits `onUploadComplete` directly: it is emitted only by
the completion effect. -/
lemma uploadCompletePayloads_rawStep (props : MediaUploaderProps) (s : State) (op : Op) :
    uploadCompletePayloads (rawStep props s op).events = [] := by
  cases op with
  | add files ids previews =>
    show uploadCompletePayloads (processFiles props s files ids previews).events = []
    simp only [processFiles]
    split_ifs <;> simp [uploadCompletePayloads]
  | removeNew fid => simp [rawStep, removeNewFile, uploadCompletePayloads]
  | removeExisting file now => simp [rawStep, removeExistingFile, uploadCompletePayloads]
  | undo fid =>
    show uploadCompletePayloads (undoRemoval s fid).events = []
    unfold undoRemoval
    cases hfind : s.undoableRemovals.find? (fun q => q.id == fid) <;>
      simp [hfind, uploadCompletePayloads]
  | confirm fid => simp [rawStep, confirmRemoval, uploadCompletePayloads]
  | clear => simp [rawStep, clearAll, uploadCompletePayloads]
  | tick fid amount => simp [rawStep, progressTick, uploadCompletePayloads]
  | sweep now => simp [rawStep, sweepTick, uploadCompletePayloads]

/-- C1 (amended): after an operation, `onUploadComplete` is invoked exactly
when the operation wrote the local pool array (add, remove-local, clear,
progress tick) and, in the resulting state, the pool is non-empty with every
file resolved (uploaded or errored) and at least one uploaded — with the
uploaded files as payload.  It therefore fires once when a batch completes,
but fires again on any later pool-writing operation (such as removing a
file) while that condition persists, rather than exactly once per batch. -/
theorem uploadComplete_emission_iff (props : MediaUploaderProps) (s : State) (op : Op) :
    uploadCompletePayloads (applyOp props s op).events =
      if (rawStep props s op).touched = true ∧
          allNewUploaded (rawStep props s op).state = true ∧
          (rawStep props s op).state.uploadedFiles.any (·.uploaded) = true then
        [(rawStep props s op).state.uploadedFiles.filter (·.uploaded)]
      else [] := by
  show uploadCompletePayloads ((rawStep props s op).events ++ _) = _
  rw [uploadCompletePayloads_append, uploadCompletePayloads_rawStep, List.nil_append]
  by_cases h : (rawStep props s op).touched = true ∧
      allNewUploaded (rawStep props s op).state = true ∧
      (rawStep props s op).state.uploadedFiles.any (·.uploaded) = true
  · obtain ⟨ht, ha, hany⟩ := h
    have hcB : ((rawStep props s op).touched && allNewUploaded (rawStep props s op).state &&
        (rawStep props s op).state.uploadedFiles.any (·.uploaded)) = true := by
      rw [ht, ha, hany]
      rfl
    rw [if_pos hcB, if_pos ⟨ht, ha, hany⟩]
    simp [uploadCompletePayloads]
  · have hcB : ¬(((rawStep props s op).touched && allNewUploaded (rawStep props s op).state &&
        (rawStep props s op).state.uploadedFiles.any (·.uploaded)) = true) := by
      intro hc
      apply h
      simpa [Bool.and_eq_true, and_assoc] using hc
    rw [if_neg hcB, if_neg h]
    rfl



lemma rawStep_tick_mixed (p : Rat) (hlt : ¬(p + 20 ≥ 100)) :
    rawStep propsStar (mixedState p false) (.tick "ua" 20) =
      { state := mixedState (p + 20) false, events := [], touched := true } := by
  simp [rawStep, progressTick, mixedState, uFileA, uFileBig, hlt]

lemma applyOp_tick_mixed (p : Rat) (hlt : ¬(p + 20 ≥ 100)) :
    (applyOp propsStar (mixedState p false) (.tick "ua" 20)).state = mixedState (p + 20) false ∧
    uploadCompletePayloads (applyOp propsStar (mixedState p false) (.tick "ua" 20)).events = [] := by
  simp only [applyOp, rawStep_tick_mixed p hlt]
  constructor
  · simp [mixedState]
  · simp [allNewUploaded, mixedState, uFileA, uFileBig, uploadCompletePayloads]

lemma rawStep_tick_done :
    rawStep propsStar (mixedState 80 false) (.tick "ua" 20) =
      { state := mixedState 100 true, events := [], touched := true } := by
  have h : ((80 : Rat) + 20 ≥ 100) := by norm_num
  simp [rawStep, progressTick, mixedState, uFileA, uFileBig, h]

lemma applyOp_tick_done :
    (applyOp propsStar (mixedState 80 false) (.tick "ua" 20)).state = mixedState 100 true ∧
    uploadCompletePayloads (applyOp propsStar (mixedState 80 false) (.tick "ua" 20)).events =
      [[uFileA 100 true]] := by
  simp only [applyOp, rawStep_tick_done]
  constructor
  · simp [mixedState]
  · simp [allNewUploaded, mixedState, uFileA, uFileBig, uploadCompletePayloads]

/-- C1 counterexample: from a fresh widget, add a batch of one valid and one
oversized file; five simulated-upload ticks of 20 complete the valid file.
The completing tick fires `onUploadComplete` once (intermediate ticks fire
nothing), so the batch-completion event has happened — and then removing the
errored file, a state change that completes no new batch, fires
`onUploadComplete` again, refuting "it is not invoked again on subsequent
state changes". -/
theorem uploadComplete_refires_cex :
    (applyOp propsStar (initState []) (.add [rawA, rawBig] idsAB noPreviews)).state =
      mixedState 0 false ∧
    (applyOp propsStar (mixedState 0 false) (.tick "ua" 20)).state = mixedState 20 false ∧
    uploadCompletePayloads
      (applyOp propsStar (mixedState 0 false) (.tick "ua" 20)).events = [] ∧
    (applyOp propsStar (mixedState 20 false) (.tick "ua" 20)).state = mixedState 40 false ∧
    (applyOp propsStar (mixedState 40 false) (.tick "ua" 20)).state = mixedState 60 false ∧
    (applyOp propsStar (mixedState 60 false) (.tick "ua" 20)).state = mixedState 80 false ∧
    (applyOp propsStar (mixedState 80 false) (.tick "ua" 20)).state = mixedState 100 true ∧
    uploadCompletePayloads
      (applyOp propsStar (mixedState 80 false) (.tick "ua" 20)).events = [[uFileA 100 true]] ∧
    uploadCompletePayloads
      (applyOp propsStar (mixedState 100 true) (.removeNew "ub")).events = [[uFileA 100 true]] := by
  refine ⟨by decide, ?_, (applyOp_tick_mixed 0 (by norm_num)).2, ?_, ?_, ?_,
    applyOp_tick_done.1, applyOp_tick_done.2, by decide⟩
  · have h := (applyOp_tick_mixed 0 (by norm_num)).1
    norm_num at h
    exact h
  · have h := (applyOp_tick_mixed 20 (by norm_num)).1
    norm_num at h
    exact h
  · have h := (applyOp_tick_mixed 40 (by norm_num)).1
    norm_num at h
    exact h
  · have h := (applyOp_tick_mixed 60 (by norm_num)).1
    norm_num at h
    exact h

lemma filesChangePayloads_append (l1 l2 : List Event) :
    filesChangePayloads (l1 ++ l2) = filesChangePayloads l1 ++ filesChangePayloads l2 := by
  simp [filesChangePayloads]

lemma errorMessages_append (l1 l2 : List Event) :
    errorMessages (l1 ++ l2) = errorMessages l1 ++ errorMessages l2 := by
  simp [errorMessages]

/-- The completion effect emits no `onFilesChange` / `onError`: those come
only from the event handler itself. -/
lemma filesChangePayloads_applyOp (props : MediaUploaderProps) (s : State) (op : Op) :
    filesChangePayloads (applyOp props s op).events =
      filesChangePayloads (rawStep props s op).events := by
  show filesChangePayloads ((rawStep props s op).events ++ _) = _
  rw [filesChangePayloads_append]
  have h : filesChangePayloads
      (if ((rawStep props s op).touched && allNewUploaded (rawStep props s op).state &&
          (rawStep props s op).state.uploadedFiles.any (·.uploaded)) = true then
        [Event.uploadComplete ((rawStep props s op).state.uploadedFiles.filter (·.uploaded))]
      else []) = [] := by
    split <;> simp [filesChangePayloads]
  rw [h, List.append_nil]

lemma errorMessages_applyOp (props : MediaUploaderProps) (s : State) (op : Op) :
    errorMessages (applyOp props s op).events = errorMessages (rawStep props s op).events := by
  show errorMessages ((rawStep props s op).events ++ _) = _
  rw [errorMessages_append]
  have h : errorMessages
      (if ((rawStep props s op).touched && allNewUploaded (rawStep props s op).state &&
          (rawStep props s op).state.uploadedFiles.any (·.uploaded)) = true then
        [Event.uploadComplete ((rawStep props s op).state.uploadedFiles.filter (·.uploaded))]
      else []) = [] := by
    split <;> simp [errorMessages]
  rw [h, List.append_nil]

/-- C2 counterexample: with `maxSize = 10`, adding a single 50MB file to a
fresh widget emits no events at all — in particular `onFilesChange` is not
invoked (the claim says it is invoked with a payload excluding the file). -/
theorem filesChange_oversized_cex :
    (applyOp propsStar (initState []) (.add [rawBig] idsAB noPreviews)).events = [] := by
  decide

/-- C2 (amended): after a local remove, `onFilesChange` fires with the raw
files of all remaining local pending files (files carrying validation errors
included); after clear it fires with the empty list; after an add that is
not rejected for capacity it fires only when the new batch contains at least
one validated file, and then its payload is the previous pool's raw files
(validated or not) followed by the new batch's validated raw files — so
adding a single oversized file triggers no `onFilesChange` at all. -/
theorem filesChange_payload_spec (props : MediaUploaderProps) (s : State) (fileId : String)
    (files : List RawFile) (ids : Nat → String) (previews : Nat → Option String) :
    filesChangePayloads (applyOp props s (.removeNew fileId)).events =
      [(s.uploadedFiles.filter fun f => !(f.id == fileId)).map (·.file)] ∧
    filesChangePayloads (applyOp props s .clear).events = [[]] ∧
    (¬(props.singleFile = true ∧ 0 < getTotalFileCount s) →
      0 < (props.maxFiles : Int) - getTotalFileCount s →
      filesChangePayloads (applyOp props s (.add files ids previews)).events =
        (let newUploadedFiles :=
          (files.take ((props.maxFiles : Int) - getTotalFileCount s).toNat).enum.map
            fun pr => buildUploadedFile props pr.2 (ids pr.1) (previews pr.1)
         let validFiles := (newUploadedFiles.filter fun f => f.error.isNone).map (·.file)
         if validFiles.length > 0 then [s.uploadedFiles.map (·.file) ++ validFiles]
         else [])) := by
  refine ⟨?_, ?_, ?_⟩
  · rw [filesChangePayloads_applyOp]
    simp [rawStep, removeNewFile, filesChangePayloads]
  · rw [filesChangePayloads_applyOp]
    simp [rawStep, clearAll, filesChangePayloads]
  · intro h1 h2
    rw [filesChangePayloads_applyOp]
    show filesChangePayloads (processFiles props s files ids previews).events = _
    have hc1 : ¬((props.singleFile && decide (getTotalFileCount s > 0)) = true) := by
      intro hc
      simp only [Bool.and_eq_true, decide_eq_true_eq] at hc
      exact h1 hc
    have hc2 : ¬((props.maxFiles : Int) - (getTotalFileCount s : Int) ≤ 0) := not_le.mpr h2
    simp only [processFiles]
    rw [if_neg hc1, if_neg hc2]
    dsimp only
    split <;> simp [filesChangePayloads]

/-- C2 witness: the add conjunct at a concrete input — adding a single
oversized file to a fresh widget yields no `onFilesChange` payload. -/
theorem filesChange_payload_spec_witness :
    filesChangePayloads (applyOp propsStar (initState [])
      (Op.add [rawBig] idsAB noPreviews)).events = [] := by
  have h := (filesChange_payload_spec propsStar (initState []) "zz" [rawBig] idsAB
    noPreviews).2.2 (by decide) (by decide)
  rw [h]
  decide

/-- C3 counterexample: with `maxFiles = 2` and empty pools, adding 3 files
accepts 2 of them but invokes `onError` zero times, not once: the excess is
dropped silently, refuting the claimed "maximum 2 files" error. -/
theorem maxFiles_excess_silent_cex :
    (applyOp propsMax2 (initState [])
        (.add [rawA, rawB, rawC] idsAB noPreviews)).state.uploadedFiles.length = 2 ∧
    errorMessages
      (applyOp propsMax2 (initState []) (.add [rawA, rawB, rawC] idsAB noPreviews)).events =
        [] := by
  decide

/-- C3 (amended): with `maxFiles = 2`, empty pools and a batch of 3 files,
`add` accepts exactly 2 files (local pending count becomes 2) and `onError`
is not invoked at all — the excess file is dropped silently. -/
theorem add_excess_drops_silently (props : MediaUploaderProps) (s : State)
    (files : List RawFile) (ids : Nat → String) (previews : Nat → Option String)
    (hmax : props.maxFiles = 2) (hsf : props.singleFile = false)
    (hempty : getTotalFileCount s = 0) (hlen : files.length = 3) :
    (applyOp props s (.add files ids previews)).state.uploadedFiles.length = 2 ∧
    errorMessages (applyOp props s (.add files ids previews)).events = [] := by
  have hup : s.uploadedFiles.length = 0 := by
    unfold getTotalFileCount at hempty
    omega
  have hc1 : ¬((props.singleFile && decide (getTotalFileCount s > 0)) = true) := by
    rw [hsf]
    simp
  have hc2 : ¬((props.maxFiles : Int) - (getTotalFileCount s : Int) ≤ 0) := by
    rw [hmax, hempty]
    decide
  constructor
  · show ((rawStep props s (.add files ids previews)).state).uploadedFiles.length = 2
    show ((processFiles props s files ids previews).state).uploadedFiles.length = 2
    simp only [processFiles]
    rw [if_neg hc1, if_neg hc2, if_neg (by rw [hsf]; simp)]
    simp only [List.length_append, List.length_map, List.enum_length, List.length_take]
    rw [hmax, hempty, hlen, hup]
    decide
  · rw [errorMessages_applyOp]
    show errorMessages (processFiles props s files ids previews).events = []
    simp only [processFiles]
    rw [if_neg hc1, if_neg hc2]
    split <;> simp [errorMessages]

/-- C3 witness. -/
theorem add_excess_drops_silently_witness :
    (applyOp propsMax2 (initState [])
        (.add [rawA, rawB, rawC] idsAB noPreviews)).state.uploadedFiles.length = 2 :=
  (add_excess_drops_silently propsMax2 (initState []) [rawA, rawB, rawC] idsAB noPreviews
    rfl rfl rfl rfl).1

/-- C4 counterexample: on a widget mounted with one remote file, `clearAll`
empties the active remote pool without creating a pending-deletion entry or
confirming the deletion, so the claimed union invariant fails: the file's id
is in the host set and unconfirmed, yet in neither the active nor the
pending pool. -/
theorem clear_breaks_pool_invariant_cex :
    ¬ coreInvariant (applyOp propsStar (initState [mediaOne]) Op.clear).state := by
  intro h
  have h1 := (h 1).mpr (by decide)
  revert h1
  decide

/-- C4 (amended): for every state reachable without `clear` — by add,
remove-local, removeExisting, undo, confirm, progress ticks and sweeps, with
UI-enabled arguments and host-supplied ids distinct — the union of the
active remote ids and the pending-deletion ids equals the host-supplied ids
minus the confirmed-deletion ids.  `clearAll` itself violates the invariant
(see the counterexample) because it empties the active remote pool without
confirming those files. -/
theorem pool_invariant_preserved_no_clear (props : MediaUploaderProps)
    (host : List MediaType) (s : State) (hnd : (host.map (·.id)).Nodup)
    (hr : Reachable props host NoClear s) : coreInvariant s := by
  induction hr with
  | init =>
    intro i
    simp [initState, activeIds, pendingIds, hostIds]
  | step hprev hen hallow ih =>
    exact coreInvariant_applyOp _ _ (idsInv_of_reachable hnd hprev) ih hen hallow

/-- C4 witness: the invariant in the state reached by one enabled removal. -/
theorem pool_invariant_preserved_no_clear_witness :
    coreInvariant (applyOp propsStar (initState [mediaOne])
      (Op.removeExisting mediaOne 0)).state :=
  pool_invariant_preserved_no_clear propsStar [mediaOne] _ (by decide)
    (Reachable.step Reachable.init
      (show mediaOne ∈ (initState [mediaOne]).displayExistingFiles by decide)
      (trivial : True))

/-- C5 counterexample: `Math.random()` may return values arbitrarily close
to (or equal to) zero, so no tick bound exists: for every candidate bound N,
the length-N run of zero increments (each a legal `Math.random() * 25`
value) leaves progress at 0 and the file not uploaded — refuting "reaches
exactly 100 within a bounded number of ticks". -/
theorem sim_no_uniform_bound_cex :
    ¬ ∃ N : Nat, ∀ amounts : List Rat, (∀ a ∈ amounts, 0 ≤ a ∧ a < 25) →
      amounts.length = N → (simRun amounts simInit).uploaded = true := by
  rintro ⟨N, h⟩
  have hstep : simStep simInit 0 = simInit := by
    norm_num [simStep, simInit]
  have hz : ∀ n : Nat, simRun (List.replicate n 0) simInit = simInit := by
    intro n
    induction n with
    | zero => rfl
    | succ k ih =>
      rw [List.replicate_succ]
      rw [show simRun ((0 : Rat) :: List.replicate k 0) simInit =
        simRun (List.replicate k 0) (simStep simInit 0) from by simp [simRun, simInit]]
      rw [hstep]
      exact ih
  have hN := h (List.replicate N 0) (by simp) (by simp)
  rw [hz N] at hN
  exact absurd hN (by decide)

/-- C5 (amended): over any run of nonnegative tick increments, progress is
monotonically non-decreasing (also across run extensions), never exceeds
100, and the uploaded flag holds exactly when progress is exactly 100; once
uploaded, further ticks change nothing (the interval is cleared), so the
flag transitions exactly once, at the tick where progress reaches 100.  A
tick bound exists only under a positive lower bound on the increments: if
every increment is at least eps and eps times the number of ticks reaches
100, the run uploads. -/
theorem simulateUpload_contract (amounts extra : List Rat) (eps : Rat)
    (hnn : ∀ a ∈ amounts, 0 ≤ a) (hnn2 : ∀ a ∈ extra, 0 ≤ a) :
    simInit.progress ≤ (simRun amounts simInit).progress ∧
    (simRun amounts simInit).progress ≤ (simRun (amounts ++ extra) simInit).progress ∧
    (simRun amounts simInit).progress ≤ 100 ∧
    ((simRun amounts simInit).uploaded = true ↔ (simRun amounts simInit).progress = 100) ∧
    ((simRun amounts simInit).uploaded = true →
      simRun (amounts ++ extra) simInit = simRun amounts simInit) ∧
    (0 < eps → (∀ a ∈ amounts, eps ≤ a) → (100 : Rat) ≤ eps * amounts.length →
      (simRun amounts simInit).uploaded = true) := by
  have base := simRun_facts amounts simInit hnn
    (fun _ => by norm_num [simInit])
    (fun hc => by simp [simInit] at hc)
    (by norm_num [simInit])
  obtain ⟨bmono, blt, beq, bnn⟩ := base
  have hle100 : (simRun amounts simInit).progress ≤ 100 := by
    cases hup : (simRun amounts simInit).uploaded with
    | false => exact le_of_lt (blt hup)
    | true => exact le_of_eq (beq hup)
  refine ⟨bmono, ?_, hle100, ⟨beq, ?_⟩, ?_, ?_⟩
  · rw [simRun_append]
    exact (simRun_facts extra (simRun amounts simInit) hnn2 blt beq bnn).1
  · intro hp
    cases hup : (simRun amounts simInit).uploaded with
    | false => exact absurd hp (ne_of_lt (blt hup))
    | true => rfl
  · intro hup
    rw [simRun_append, simRun_frozen _ _ hup]
  · intro heps hlb hbound
    refine simRun_bound eps amounts simInit hlb rfl (by norm_num [simInit]) ?_
    show (100 : Rat) ≤ simInit.progress + eps * amounts.length
    simpa [simInit] using hbound

/-- C5 witness: five increments of 20 complete the upload. -/
theorem simulateUpload_contract_witness :
    (simRun [20, 20, 20, 20, 20] simInit).uploaded = true :=
  (simulateUpload_contract [20, 20, 20, 20, 20] [] 20 (by norm_num) (by simp)).2.2.2.2.2
    (by norm_num) (by norm_num) (by norm_num)

/-- C6: in any reachable state (host ids distinct) holding a pending
removal entry `r`: `undo(r.id)` — possible exactly while the entry is still
pending, i.e. before its grace window was swept — appends the wrapped file
back to the active remote list (so it is a member again) and leaves the
confirmed-deletion list unchanged; and a sweep tick at any time at least 10
seconds after the removal puts `r.id` in the confirmed list exactly once and
removes the entry from the pending-deletion set. -/
theorem grace_window_spec (props : MediaUploaderProps) (host : List MediaType)
    (allow : Op → Prop) (s : State) (r : UndoableRemoval) (now : Int)
    (hnd : (host.map (·.id)).Nodup) (hr : Reachable props host allow s)
    (hmem : r ∈ s.undoableRemovals) (hexp : r.removedAt + 10000 ≤ now) :
    (applyOp props s (.undo r.id)).state.displayExistingFiles =
      s.displayExistingFiles ++ [r.file] ∧
    r.file ∈ (applyOp props s (.undo r.id)).state.displayExistingFiles ∧
    (applyOp props s (.undo r.id)).state.removedImageIds = s.removedImageIds ∧
    (applyOp props s (.sweep now)).state.removedImageIds.count r.id = 1 ∧
    r.id ∉ pendingIds (applyOp props s (.sweep now)).state := by
  obtain ⟨h1, h2, h3⟩ := idsInv_of_reachable hnd hr
  have hPnd : (pendingIds s).Nodup := (List.nodup_append.mp h1).2.1
  have hfind : s.undoableRemovals.find? (fun q => q.id == r.id) = some r := by
    cases hf : s.undoableRemovals.find? (fun q => q.id == r.id) with
    | none =>
      have := List.find?_eq_none.mp hf r hmem
      simp at this
    | some q =>
      have hq_mem : q ∈ s.undoableRemovals := List.mem_of_find?_eq_some hf
      have hq := List.find?_some hf
      have hqid : q.id = r.id := by simpa using hq
      rw [List.inj_on_of_nodup_map hPnd hq_mem hmem hqid]
  have hraw : rawStep props s (.undo r.id) =
      { state :=
          { s with
            displayExistingFiles := s.displayExistingFiles ++ [r.file]
            undoableRemovals := s.undoableRemovals.filter fun q => !(q.id == r.id) }
        events := [], touched := false } := by
    show undoRemoval s r.id = _
    unfold undoRemoval
    rw [hfind]
  have hexpB : (decide (r.removedAt + 10000 - now ≤ 0)) = true := decide_eq_true (by omega)
  have hrE : r ∈ s.undoableRemovals.filter
      fun q => (q.removedAt + 10000 - now ≤ 0 : Bool) :=
    List.mem_filter.mpr ⟨hmem, hexpB⟩
  refine ⟨?_, ?_, ?_, ?_, ?_⟩
  · show ((rawStep props s (.undo r.id)).state).displayExistingFiles = _
    rw [hraw]
  · show r.file ∈ ((rawStep props s (.undo r.id)).state).displayExistingFiles
    rw [hraw]
    exact List.mem_append_right _ (List.mem_singleton.mpr rfl)
  · show ((rawStep props s (.undo r.id)).state).removedImageIds = _
    rw [hraw]
  · show (s.removedImageIds ++ (s.undoableRemovals.filter
        fun q => (q.removedAt + 10000 - now ≤ 0 : Bool)).map (·.id)).count r.id = 1
    rw [List.count_append]
    have hrC : r.id ∉ s.removedImageIds :=
      h2 r.id (List.mem_append_right _ (List.mem_map_of_mem _ hmem))
    have hc0 : s.removedImageIds.count r.id = 0 := List.count_eq_zero.mpr hrC
    have hnodE : ((s.undoableRemovals.filter
        fun q => (q.removedAt + 10000 - now ≤ 0 : Bool)).map (·.id)).Nodup :=
      hPnd.sublist ((List.filter_sublist s.undoableRemovals).map _)
    have hcE : ((s.undoableRemovals.filter
        fun q => (q.removedAt + 10000 - now ≤ 0 : Bool)).map (·.id)).count r.id = 1 :=
      List.count_eq_one_of_mem hnodE (List.mem_map_of_mem _ hrE)
    omega
  · show r.id ∉ (s.undoableRemovals.filter
        fun q => !(q.removedAt + 10000 - now ≤ 0 : Bool)).map (·.id)
    intro hkept
    exact sweep_ids_disjoint s.undoableRemovals _ hPnd r.id hkept
      (List.mem_map_of_mem _ hrE)


/-- C6 witness. -/
theorem grace_window_spec_witness :
    (applyOp propsStar pendState (.sweep 10000)).state.removedImageIds.count pendEntry.id = 1 :=
  (grace_window_spec propsStar [mediaOne] (fun _ => True) pendState pendEntry 10000
    (by decide)
    (Reachable.step Reachable.init
      (show mediaOne ∈ (initState [mediaOne]).displayExistingFiles by decide)
      (trivial : True))
    (by decide) (by decide)).2.2.2.1

/-- An operation whose handler returns the state unchanged without touching
the pool leaves the widget state (including the sweep timer) and emits
exactly its events. -/
lemma applyOp_of_rawStep_id (props : MediaUploaderProps) (s : State) (op : Op)
    (ev : List Event)
    (h : rawStep props s op = { state := s, events := ev, touched := false }) :
    (applyOp props s op).state = s ∧ (applyOp props s op).events = ev := by
  unfold applyOp
  rw [h]
  constructor
  · simp
  · simp

/-- C7: `add` on a non-empty batch: in single-file mode with an occupied
slot it emits only the "Only one file allowed" error and mutates nothing;
with no slot available it emits only the "Maximum N files allowed" error and
mutates nothing; otherwise it appends exactly the first
`min(batchSize, availableSlots)` raw files of the batch (in order) to the
local pending pool, emits no error, and the total file count never exceeds
`maxFiles`. -/
theorem processFiles_capacity_spec (props : MediaUploaderProps) (s : State)
    (files : List RawFile) (ids : Nat → String) (previews : Nat → Option String)
    (_hne : files ≠ []) :
    (props.singleFile = true ∧ 0 < getTotalFileCount s →
      (applyOp props s (.add files ids previews)).state = s ∧
      (applyOp props s (.add files ids previews)).events =
        [.error "Only one file allowed. Remove existing file first."]) ∧
    (¬(props.singleFile = true ∧ 0 < getTotalFileCount s) →
      (props.maxFiles : Int) - getTotalFileCount s ≤ 0 →
      (applyOp props s (.add files ids previews)).state = s ∧
      (applyOp props s (.add files ids previews)).events =
        [.error ("Maximum " ++ toString props.maxFiles ++ " files allowed")]) ∧
    (¬(props.singleFile = true ∧ 0 < getTotalFileCount s) →
      0 < (props.maxFiles : Int) - getTotalFileCount s →
      (applyOp props s (.add files ids previews)).state.uploadedFiles.map (·.file) =
        s.uploadedFiles.map (·.file) ++
          files.take ((props.maxFiles : Int) - getTotalFileCount s).toNat ∧
      (applyOp props s (.add files ids previews)).state.uploadedFiles.length =
        s.uploadedFiles.length +
          min ((props.maxFiles : Int) - getTotalFileCount s).toNat files.length ∧
      errorMessages (applyOp props s (.add files ids previews)).events = [] ∧
      getTotalFileCount (applyOp props s (.add files ids previews)).state ≤
        props.maxFiles) := by
  refine ⟨?_, ?_, ?_⟩
  · rintro ⟨hsf, hcnt⟩
    have hc1 : (props.singleFile && decide (getTotalFileCount s > 0)) = true := by
      rw [hsf]
      simp [hcnt]
    refine applyOp_of_rawStep_id props s _ _ ?_
    show processFiles props s files ids previews = _
    simp only [processFiles]
    rw [if_pos hc1]
  · intro hng hle
    have hc1 : ¬((props.singleFile && decide (getTotalFileCount s > 0)) = true) := by
      intro hc
      simp only [Bool.and_eq_true, decide_eq_true_eq] at hc
      exact hng hc
    refine applyOp_of_rawStep_id props s _ _ ?_
    show processFiles props s files ids previews = _
    simp only [processFiles]
    rw [if_neg hc1, if_pos hle]
  · intro hng hpos
    have hc1 : ¬((props.singleFile && decide (getTotalFileCount s > 0)) = true) := by
      intro hc
      simp only [Bool.and_eq_true, decide_eq_true_eq] at hc
      exact hng hc
    have hc2 : ¬((props.maxFiles : Int) - (getTotalFileCount s : Int) ≤ 0) :=
      not_le.mpr hpos
    have hfile : ∀ (l : List RawFile),
        ((l.enum.map fun pr =>
          buildUploadedFile props pr.2 (ids pr.1) (previews pr.1)).map (·.file)) = l := by
      intro l
      rw [List.map_map]
      exact List.enum_map_snd l
    by_cases hsf : props.singleFile = true
    · have hcnt0 : getTotalFileCount s = 0 := by
        by_cases hgt : 0 < getTotalFileCount s
        · exact absurd ⟨hsf, hgt⟩ hng
        · omega
      have hup0 : s.uploadedFiles = [] := by
        have : s.uploadedFiles.length = 0 := by
          unfold getTotalFileCount at hcnt0
          omega
        exact List.length_eq_zero.mp this
      have hstate : (applyOp props s (.add files ids previews)).state.uploadedFiles =
          (files.take ((props.maxFiles : Int) - getTotalFileCount s).toNat).enum.map
            fun pr => buildUploadedFile props pr.2 (ids pr.1) (previews pr.1) := by
        show ((processFiles props s files ids previews).state).uploadedFiles = _
        simp only [processFiles]
        rw [if_neg hc1, if_neg hc2, if_pos hsf]
      have hdisp : (applyOp props s (.add files ids previews)).state.displayExistingFiles
          = [] := by
        show ((processFiles props s files ids previews).state).displayExistingFiles = _
        simp only [processFiles]
        rw [if_neg hc1, if_neg hc2, if_pos hsf]
      refine ⟨?_, ?_, ?_, ?_⟩
      · rw [hstate, hfile, hup0]
        rfl
      · rw [hstate, hup0]
        simp [List.length_take]
      · rw [errorMessages_applyOp]
        show errorMessages (processFiles props s files ids previews).events = []
        simp only [processFiles]
        rw [if_neg hc1, if_neg hc2]
        dsimp only
        split <;> simp [errorMessages]
      · show (applyOp props s (.add files ids previews)).state.displayExistingFiles.length +
          (applyOp props s (.add files ids previews)).state.uploadedFiles.length ≤
            props.maxFiles
        rw [hstate, hdisp]
        simp only [List.length_nil, List.length_map, List.enum_length, List.length_take]
        omega
    · have hstate : (applyOp props s (.add files ids previews)).state.uploadedFiles =
          s.uploadedFiles ++
            (files.take ((props.maxFiles : Int) - getTotalFileCount s).toNat).enum.map
              fun pr => buildUploadedFile props pr.2 (ids pr.1) (previews pr.1) := by
        show ((processFiles props s files ids previews).state).uploadedFiles = _
        simp only [processFiles]
        rw [if_neg hc1, if_neg hc2, if_neg hsf]
      have hdisp : (applyOp props s (.add files ids previews)).state.displayExistingFiles
          = s.displayExistingFiles := by
        show ((processFiles props s files ids previews).state).displayExistingFiles = _
        simp only [processFiles]
        rw [if_neg hc1, if_neg hc2, if_neg hsf]
      refine ⟨?_, ?_, ?_, ?_⟩
      · rw [hstate, List.map_append, hfile]
      · rw [hstate]
        simp [List.length_take]
      · rw [errorMessages_applyOp]
        show errorMessages (processFiles props s files ids previews).events = []
        simp only [processFiles]
        rw [if_neg hc1, if_neg hc2]
        dsimp only
        split <;> simp [errorMessages]
      · show (applyOp props s (.add files ids previews)).state.displayExistingFiles.length +
          (applyOp props s (.add files ids previews)).state.uploadedFiles.length ≤
            props.maxFiles
        rw [hstate, hdisp]
        simp only [List.length_append, List.length_map, List.enum_length, List.length_take]
        unfold getTotalFileCount at hpos hng ⊢
        omega

/-- C7 witness: single-file mode with an occupied slot rejects the batch
with the capacity error and mutates nothing. -/
theorem processFiles_capacity_spec_witness :
    (applyOp { propsStar with singleFile := true } (mixedState 0 false)
        (.add [rawB] idsAB noPreviews)).state = mixedState 0 false ∧
    (applyOp { propsStar with singleFile := true } (mixedState 0 false)
        (.add [rawB] idsAB noPreviews)).events =
      [.error "Only one file allowed. Remove existing file first."] :=
  (processFiles_capacity_spec { propsStar with singleFile := true } (mixedState 0 false)
    [rawB] idsAB noPreviews (by decide)).1 (by decide)

/-- For states reachable without `undo`, the active remote list is always an
order-preserving sublist of the host-supplied list. -/
lemma active_sublist_host_no_undo (props : MediaUploaderProps) (host : List MediaType)
    {s : State} (hr : Reachable props host NoUndo s) :
    s.displayExistingFiles.Sublist host := by
  induction hr with
  | init => exact List.Sublist.refl host
  | step hprev hen hallow ih =>
    rename_i t op
    show ((rawStep props t op).state).displayExistingFiles.Sublist host
    cases op with
    | add files ids previews =>
      show ((processFiles props t files ids previews).state).displayExistingFiles.Sublist host
      simp only [processFiles]
      split_ifs with hc1 hc2 hc3 <;>
        first
          | exact ih
          | exact List.nil_sublist host
    | removeNew fid => exact ih
    | tick fid amount => exact ih
    | clear => exact List.nil_sublist host
    | removeExisting file now =>
      show (t.displayExistingFiles.filter _).Sublist host
      exact (List.filter_sublist _).trans ih
    | undo fid => exact hallow.elim
    | confirm fid => exact ih
    | sweep now => exact ih

/-- C8 counterexample: host supplies files with ids `[1, 2]`; after
`removeExisting` of file 1 and `undo(1)`, the active remote list is
`[2, 1]` — the restored file is appended at the end, so the displayed remote
files are no longer in host-supplied order. -/
theorem undo_breaks_host_order_cex :
    activeIds (runOps propsStar (initState [mediaOne, mediaTwo])
      [.removeExisting mediaOne 0, .undo 1]) = [2, 1] ∧
    hostIds (runOps propsStar (initState [mediaOne, mediaTwo])
      [.removeExisting mediaOne 0, .undo 1]) = [1, 2] ∧
    ¬ (activeIds (runOps propsStar (initState [mediaOne, mediaTwo])
        [.removeExisting mediaOne 0, .undo 1])).Sublist
      (hostIds (runOps propsStar (initState [mediaOne, mediaTwo])
        [.removeExisting mediaOne 0, .undo 1])) := by
  decide

/-- C8 (amended): the displayed list is always the active remote files
followed by the local pending files (local files in append order); for every
state reachable without `undo`, the active remote files retain the
host-supplied order (an order-preserving sublist of the host list); an
`undo`, however, appends the restored file at the end of the active remote
list rather than at its original position, which is what breaks host order
after an undo. -/
theorem display_order_spec (props : MediaUploaderProps) (host : List MediaType)
    (s : State) (r : UndoableRemoval) (fid : Int)
    (hr : Reachable props host NoUndo s)
    (hfind : s.undoableRemovals.find? (fun q => q.id == fid) = some r) :
    allFiles s = s.displayExistingFiles.map FileItem.existing ++
      s.uploadedFiles.map FileItem.newFile ∧
    s.displayExistingFiles.Sublist host ∧
    (applyOp props s (.undo fid)).state.displayExistingFiles =
      s.displayExistingFiles ++ [r.file] := by
  refine ⟨rfl, active_sublist_host_no_undo props host hr, ?_⟩
  have hraw : rawStep props s (.undo fid) =
      { state :=
          { s with
            displayExistingFiles := s.displayExistingFiles ++ [r.file]
            undoableRemovals := s.undoableRemovals.filter fun q => !(q.id == fid) }
        events := [], touched := false } := by
    show undoRemoval s fid = _
    unfold undoRemoval
    rw [hfind]
  show ((rawStep props s (.undo fid)).state).displayExistingFiles = _
  rw [hraw]

/-- C8 witness. -/
theorem display_order_spec_witness :
    (applyOp propsStar pendState (.undo 1)).state.displayExistingFiles =
      pendState.displayExistingFiles ++ [pendEntry.file] :=
  (display_order_spec propsStar [mediaOne] pendState pendEntry 1
    (Reachable.step Reachable.init
      (show mediaOne ∈ (initState [mediaOne]).displayExistingFiles by decide)
      (trivial : True))
    (by decide)).2.2

/-- C9: in every reachable state the sweep interval is scheduled exactly
when the pending-deletion set is non-empty; moreover a sweep tick fired in a
state with no pending deletions would not mutate the state at all, so the
timer — which is torn down whenever the set empties and re-created on the
next removal — never runs and never mutates state while nothing is
pending. -/
theorem sweep_timer_spec (props : MediaUploaderProps) (host : List MediaType)
    (allow : Op → Prop) (s : State) (hr : Reachable props host allow s) :
    (s.sweepOn = true ↔ s.undoableRemovals ≠ []) ∧
    (∀ now : Int, s.undoableRemovals = [] →
      (applyOp props s (.sweep now)).state = s) := by
  constructor
  · induction hr with
    | init => simp [initState]
    | step hprev hen hallow ih =>
      rename_i t op
      show (if (rawStep props t op).state.undoableRemovals.length ≠
          t.undoableRemovals.length then
          decide ((rawStep props t op).state.undoableRemovals.length ≠ 0)
        else t.sweepOn) = true ↔
        (rawStep props t op).state.undoableRemovals ≠ []
      by_cases hlen : (rawStep props t op).state.undoableRemovals.length =
          t.undoableRemovals.length
      · rw [if_neg (by simp [hlen])]
        have hiff : (rawStep props t op).state.undoableRemovals = [] ↔
            t.undoableRemovals = [] := by
          rw [← List.length_eq_zero, hlen, List.length_eq_zero]
        rw [ih]
        exact not_congr hiff.symm
      · rw [if_pos hlen, decide_eq_true_eq]
        exact not_congr List.length_eq_zero
  · intro now hempty
    rcases s with ⟨up, disp, rem, und, hostf, sw⟩
    simp only at hempty
    subst hempty
    simp [applyOp, rawStep, sweepTick]

/-- C9 witness: after one removal the timer is scheduled, matching the
non-empty pending set. -/
theorem sweep_timer_spec_witness :
    pendState.sweepOn = true ↔ pendState.undoableRemovals ≠ [] :=
  (sweep_timer_spec propsStar [mediaOne] (fun _ => True) pendState
    (Reachable.step Reachable.init
      (show mediaOne ∈ (initState [mediaOne]).displayExistingFiles by decide)
      (trivial : True))).1

lemma applyOp_state_of_pending_unchanged (props : MediaUploaderProps) (s : State)
    (op : Op)
    (h : (rawStep props s op).state.undoableRemovals = s.undoableRemovals) :
    (applyOp props s op).state =
      { (rawStep props s op).state with sweepOn := s.sweepOn } := by
  unfold applyOp
  simp [h]

/-- C10: `clearAll` empties only the local pending pool and the active
remote pool: pending-deletion entries, the confirmed-deletion list and the
scheduled sweep timer are all unchanged, every entry pending at clear time
is still pending afterwards with its grace window intact, and a sweep tick
at or after its expiry still appends its id to the confirmed list and drops
the entry from the pending set. -/
theorem clearAll_frame_spec (props : MediaUploaderProps) (s : State)
    (r : UndoableRemoval) (now : Int)
    (hmem : r ∈ s.undoableRemovals) (hexp : r.removedAt + 10000 ≤ now) :
    (applyOp props s .clear).state.undoableRemovals = s.undoableRemovals ∧
    (applyOp props s .clear).state.removedImageIds = s.removedImageIds ∧
    (applyOp props s .clear).state.sweepOn = s.sweepOn ∧
    r ∈ (applyOp props s .clear).state.undoableRemovals ∧
    r.id ∈ (applyOp props (applyOp props s .clear).state
      (.sweep now)).state.removedImageIds ∧
    r ∉ (applyOp props (applyOp props s .clear).state
      (.sweep now)).state.undoableRemovals := by
  have hclear : (applyOp props s .clear).state =
      { s with uploadedFiles := [], displayExistingFiles := [] } := by
    rw [applyOp_state_of_pending_unchanged props s .clear rfl]
    rfl
  refine ⟨?_, ?_, ?_, ?_, ?_, ?_⟩
  · rw [hclear]
  · rw [hclear]
  · rw [hclear]
  · rw [hclear]
    exact hmem
  · rw [hclear]
    show r.id ∈ s.removedImageIds ++ (s.undoableRemovals.filter
      fun q => (q.removedAt + 10000 - now ≤ 0 : Bool)).map (·.id)
    exact List.mem_append_right _ (List.mem_map_of_mem _
      (List.mem_filter.mpr ⟨hmem, decide_eq_true (by omega)⟩))
  · rw [hclear]
    show r ∉ s.undoableRemovals.filter
      fun q => !(q.removedAt + 10000 - now ≤ 0 : Bool)
    intro hc
    have hq := (List.mem_filter.mp hc).2
    simp at hq
    omega

/-- C10 witness. -/
theorem clearAll_frame_spec_witness :
    pendEntry.id ∈ (applyOp propsStar (applyOp propsStar pendState Op.clear).state
      (.sweep 10000)).state.removedImageIds :=
  (clearAll_frame_spec propsStar pendState pendEntry 10000
    (by decide) (by decide)).2.2.2.2.1
